import Mathlib

/-!
Formal model of PicCull (piccull.py), a single-user image-culling desktop
application.  Python strings are modelled as Lean Strings; wherever
comparison or case-lowering matters we work on their character lists,
matching Python's code-point semantics.  Filesystem effects are modelled
explicitly: a directory listing is a list of entries, the set of files on
disk is a list of paths, and a fallible operation returns Option/Except.
-/

/-- ASCII lower-casing of one character (the effect of Python str.lower
on the ASCII file names this application manipulates). -/
def lowerChar (c : Char) : Char :=
  if 'A' ≤ c ∧ c ≤ 'Z' then Char.ofNat (c.toNat + 32) else c

/-- Python string comparison: lexicographic on code points. -/
def strLt : List Char → List Char → Bool
  | [], [] => false
  | [], _ :: _ => true
  | _ :: _, [] => false
  | a :: as, b :: bs => if a < b then true else if b < a then false else strLt as bs

/-- Python name.lower(), as the character list of the name. -/
def lowerKey (s : String) : List Char := s.toList.map lowerChar

/-- Index (from the front) of the last dot in a list of characters. -/
def lastDotIdx : List Char → Option Nat
  | [] => none
  | c :: rest =>
    match lastDotIdx rest with
    | some i => some (i + 1)
    | none => if c = '.' then some 0 else none

/-- pathlib PurePath.suffix: the final extension including the dot; empty
unless the last dot sits strictly inside the name (index i with
0 < i < length - 1). -/
def pySuffix (name : String) : String :=
  let cs := name.toList
  match lastDotIdx cs with
  | some i => if 0 < i ∧ i + 1 < cs.length then String.mk (cs.drop i) else ""
  | none => ""

/-- pathlib PurePath.stem: the name with its suffix removed. -/
def pyStem (name : String) : String :=
  let cs := name.toList
  match lastDotIdx cs with
  | some i => if 0 < i ∧ i + 1 < cs.length then String.mk (cs.take i) else name
  | none => name

/-- One directory entry as Path.iterdir yields it: a file name plus
whether it is a regular file. -/
structure DirEntry where
  name : String
  isFile : Bool
deriving DecidableEq, Repr

/-- A directory as the OS presents it: its entries in enumeration order,
and whether listing it succeeds.  iterdir raises (PermissionError or
similar) on an unreadable directory. -/
structure Folder where
  readable : Bool
  entries : List DirEntry
deriving DecidableEq, Repr

/-- is_image(path): path.suffix.lower() in IMG_EXTS, with
IMG_EXTS = set of .jpg, .jpeg, .png. -/
def is_image (name : String) : Bool :=
  let sfx := String.mk (lowerKey (pySuffix name))
  sfx == ".jpg" || sfx == ".jpeg" || sfx == ".png"

/-- Stable sorted-insert for a strict key comparison: the new element is
placed before the first entry it does not strictly follow, so key ties
keep their original relative order. -/
def sortedInsert (lt : α → α → Bool) (a : α) : List α → List α
  | [] => [a]
  | b :: bs => if lt b a then b :: sortedInsert lt a bs else a :: b :: bs

/-- Python sorted(l, key=k): the unique stable ascending sort by the
strict comparison lt on keys (CPython's sort is documented stable, and a
stable sort is extensionally determined by the key order alone). -/
def pySorted (lt : α → α → Bool) : List α → List α
  | [] => []
  | x :: xs => sortedInsert lt x (pySorted lt xs)

/-- The sort key of list_images: case-insensitive file-name order
(key=lambda p: p.name.lower(), compared with Python string <). -/
def nameKeyLt (a b : DirEntry) : Bool := strLt (lowerKey a.name) (lowerKey b.name)

/-- list_images(folder) =
sorted([p for p in folder.iterdir() if p.is_file() and is_image(p)],
key=lambda p: p.name.lower()).  The Except.error case models the OSError
that iterdir raises on an unreadable folder; list_images has no handler,
so the exception propagates to its caller. -/
def list_images (f : Folder) : Except Unit (List DirEntry) :=
  if f.readable then
    Except.ok (pySorted nameKeyLt (f.entries.filter (fun e => e.isFile && is_image e.name)))
  else Except.error ()

/-- An absolute path, split as parent directory and file name (Path
objects compare equal exactly when their textual parts do). -/
structure FsPath where
  dir : String
  name : String
deriving DecidableEq, Repr

/-- The files on disk: the list of currently existing paths. -/
abbrev FS := List FsPath

/-- shutil.move on a single file: the source path stops existing and the
destination path starts existing. -/
def moveFile (fs : FS) (src dst : FsPath) : FS := dst :: fs.erase src

/-- ensure_deleted_folder(base): the reserved .deleted subfolder directly
under base.  mkdir(exist_ok=True) is idempotent, and directories are not
part of the file model, so only the name computation remains. -/
def ensure_deleted_folder (base : String) : String := base ++ "/.deleted"

/-- The while-loop of safe_move_to_deleted: try the names stem-i ext for
i = start, start+1, ... until one is free in the destination folder.  The
loop in the source is unbounded; fuel bounds the recursion here, and none
models non-termination (unreachable once the fuel exceeds the number of
colliding names). -/
def findFreeCandidate (fs : FS) (dir stem ext : String) : Nat → Nat → Option String
  | _, 0 => none
  | i, fuel + 1 =>
    let candidate := stem ++ "-" ++ toString i ++ ext
    if (⟨dir, candidate⟩ : FsPath) ∈ fs then findFreeCandidate fs dir stem ext (i + 1) fuel
    else some candidate

/-- safe_move_to_deleted(src, deleted_dir): move src into deleted_dir
under its own name if that name is free, else under the first free
stem-i suffixed name for i = 1, 2, ...  Returns the chosen destination
path together with the filesystem after the move. -/
def safe_move_to_deleted (fs : FS) (src : FsPath) (deleted_dir : String) (fuel : Nat) :
    Option (FsPath × FS) :=
  let target : FsPath := ⟨deleted_dir, src.name⟩
  if target ∈ fs then
    match findFreeCandidate fs deleted_dir (pyStem src.name) (pySuffix src.name) 1 fuel with
    | none => none
    | some c => some (⟨deleted_dir, c⟩, moveFile fs src ⟨deleted_dir, c⟩)
  else some (target, moveFile fs src target)

/-- A bitmap held by the thumbnail cache: either the decoded, downscaled
image of a path, or the fixed-colour size-by-size placeholder produced
when decoding fails. -/
inductive Thumb where
  | image (path : FsPath) (size : Nat)
  | placeholder (size : Nat)
deriving DecidableEq, Repr

abbrev ThumbKey := FsPath × Nat

abbrev ThumbCache := List (ThumbKey × Thumb)

/-- dict.get(key): the value stored under the key, if any (keys are
unique in a Python dict, so the first match is the match). -/
def dictGet (cache : ThumbCache) (k : ThumbKey) : Option Thumb :=
  (cache.find? (fun kv => kv.1 == k)).map (fun kv => kv.2)

/-- dict.pop(key, None): drop the entry with the given key. -/
def popKey : ThumbCache → ThumbKey → ThumbCache
  | [], _ => []
  | kv :: rest, k => if kv.1 = k then rest else kv :: popKey rest k

/-- _purge_thumb_cache_for_path: collect every key whose path component
equals the given path, then pop each of them. -/
def purge_thumb_cache_for_path (cache : ThumbCache) (path : FsPath) : ThumbCache :=
  let toDelete := (cache.filter (fun kv => kv.1.1 == path)).map (fun kv => kv.1)
  toDelete.foldl popKey cache

/-- _get_thumbnail(path, size): return the cached bitmap when the key is
already present; otherwise decode the file (decodeOk says whether
Image.open succeeds on the path), fall back to the placeholder on
failure, and store the result under the key.  Python dict insertion of a
fresh key appends it after the existing entries. -/
def get_thumbnail (decodeOk : FsPath → Bool) (cache : ThumbCache) (path : FsPath)
    (s : Nat) : Thumb × ThumbCache :=
  match dictGet cache (path, s) with
  | some c => (c, cache)
  | none =>
    if decodeOk path then
      let photo := Thumb.image path s
      (photo, cache ++ [((path, s), photo)])
    else
      let photo := Thumb.placeholder s
      (photo, cache ++ [((path, s), photo)])

/-- The undo slot _last_deleted:
(original_parent, moved_to_path, original_index, original_name). -/
structure UndoRecord where
  original_parent : String
  moved_to : FsPath
  original_index : Int
  original_name : String
deriving DecidableEq, Repr

/-- The mutable state of PicCullApp that the claims concern: the image
list, the selection index, the undo slot and the thumbnail cache.
Widget handles and display-only fields are omitted. -/
structure AppState where
  images : List FsPath
  index : Int
  lastDeleted : Option UndoRecord
  thumbCache : ThumbCache
deriving DecidableEq, Repr

/-- Normalise a Python sequence index: non-negative indices address from
the front, negative ones from the back, anything else raises IndexError
(modelled as none). -/
def pyNorm (len : Nat) (i : Int) : Option Nat :=
  if 0 ≤ i ∧ i < (len : Int) then some i.toNat
  else if -(len : Int) ≤ i ∧ i < 0 then some (len - (-i).toNat)
  else none

/-- l[i] on a Python list. -/
def pyGet (l : List α) (i : Int) : Option α :=
  (pyNorm l.length i).bind (fun j => l[j]?)

/-- del l[i] on a Python list; the index is valid whenever the
application reaches this statement, so the fallback arm is dead code. -/
def pyDeleteAt (l : List α) (i : Int) : List α :=
  match pyNorm l.length i with
  | some j => l.eraseIdx j
  | none => l

/-- prev_image: step the selection left unless the list is empty or the
selection is already first; rendering calls do not touch the modelled
state. -/
def prev_image (st : AppState) : AppState :=
  if st.images.isEmpty ∨ st.index ≤ 0 then st
  else { st with index := st.index - 1 }

/-- next_image: step the selection right unless the list is empty or the
selection is already last. -/
def next_image (st : AppState) : AppState :=
  if st.images.isEmpty ∨ st.index ≥ (st.images.length : Int) - 1 then st
  else { st with index := st.index + 1 }

/-- delete_current: look up the current image, move it into the .deleted
subfolder of its parent with collision-safe naming, then drop it from the
list, purge its thumbnails, fill the undo slot and re-clamp the index.
moveOk says whether the filesystem operations inside the try block
succeed; when one raises, the except arm shows a dialog and every piece
of state is left untouched.  none models the abnormal ends: IndexError on
a corrupted index (raised before the try block), or the unbounded
collision loop outrunning its fuel. -/
def delete_current (st : AppState) (fs : FS) (moveOk : Bool) (fuel : Nat) :
    Option (AppState × FS) :=
  if st.images.isEmpty then some (st, fs)
  else
    match pyGet st.images st.index with
    | none => none
    | some cur =>
      match safe_move_to_deleted fs cur (ensure_deleted_folder cur.dir) fuel with
      | none => none
      | some (moved_to, fs') =>
        if moveOk then
          let original_index := st.index
          let images' := pyDeleteAt st.images st.index
          let cache' := purge_thumb_cache_for_path st.thumbCache cur
          let record := UndoRecord.mk cur.dir moved_to original_index cur.name
          let index' := if images'.isEmpty then -1
                        else min original_index ((images'.length : Int) - 1)
          some ({ images := images', index := index', lastDeleted := some record,
                  thumbCache := cache' }, fs')
        else some (st, fs)

/-- The while-loop of undo_last_delete: find the first free
stem-restored-i name in the original folder. -/
def findRestoredCandidate (fs : FS) (dir stem ext : String) : Nat → Nat → Option String
  | _, 0 => none
  | i, fuel + 1 =>
    let candidate := stem ++ "-restored-" ++ toString i ++ ext
    if (⟨dir, candidate⟩ : FsPath) ∈ fs then findRestoredCandidate fs dir stem ext (i + 1) fuel
    else some candidate

/-- undo_last_delete: a no-op without a record; otherwise compute a
collision-free destination in the original folder, move the file back,
insert it at the clamped original index, select it and clear the record.
When the move raises (moveOk = false) the except arm shows a dialog and
every piece of state, the record included, is kept, so the user may
retry. -/
def undo_last_delete (st : AppState) (fs : FS) (moveOk : Bool) (fuel : Nat) :
    Option (AppState × FS) :=
  match st.lastDeleted with
  | none => some (st, fs)
  | some r =>
    let destName :=
      if (⟨r.original_parent, r.original_name⟩ : FsPath) ∈ fs then
        findRestoredCandidate fs r.original_parent (pyStem r.original_name)
          (pySuffix r.original_name) 1 fuel
      else some r.original_name
    match destName with
    | none => none
    | some dn =>
      let dest : FsPath := ⟨r.original_parent, dn⟩
      if moveOk then
        let fs' := moveFile fs r.moved_to dest
        let insert_at : Int := max 0 (min r.original_index (st.images.length : Int))
        let images' := st.images.insertIdx insert_at.toNat dest
        some ({ images := images', index := insert_at, lastDeleted := none,
                thumbCache := st.thumbCache }, fs')
      else some (st, fs)

/-! ## Order-theoretic facts about Python string comparison -/

theorem strLt_irrefl : ∀ l : List Char, strLt l l = false := by
  intro l
  induction l with
  | nil => rfl
  | cons c cs ih => simp [strLt, lt_irrefl c, ih]

theorem strLt_trichotomy : ∀ a b : List Char, strLt a b = true ∨ a = b ∨ strLt b a = true := by
  intro a
  induction a with
  | nil =>
    intro b
    cases b with
    | nil => exact Or.inr (Or.inl rfl)
    | cons y ys => exact Or.inl rfl
  | cons x xs ih =>
    intro b
    cases b with
    | nil => exact Or.inr (Or.inr rfl)
    | cons y ys =>
      rcases lt_trichotomy x y with h | h | h
      · left
        simp [strLt, h]
      · subst h
        rcases ih ys with h2 | h2 | h2
        · left
          simp [strLt, lt_irrefl x, h2]
        · right
          left
          rw [h2]
        · right
          right
          simp [strLt, lt_irrefl x, h2]
      · right
        right
        simp [strLt, h]

theorem strLt_trans :
    ∀ a b c : List Char, strLt a b = true → strLt b c = true → strLt a c = true := by
  intro a
  induction a with
  | nil =>
    intro b c h1 h2
    cases c with
    | nil =>
      cases b with
      | nil => exact h1
      | cons y ys => simp [strLt] at h2
    | cons z zs => rfl
  | cons x xs ih =>
    intro b c h1 h2
    cases b with
    | nil => simp [strLt] at h1
    | cons y ys =>
      cases c with
      | nil => simp [strLt] at h2
      | cons z zs =>
        by_cases hxy : x < y
        · by_cases hyz : y < z
          · simp [strLt, lt_trans hxy hyz]
          · by_cases hzy : z < y
            · simp [strLt, hyz, hzy] at h2
            · have hzeq : z = y := le_antisymm (not_lt.mp hyz) (not_lt.mp hzy)
              subst hzeq
              simp [strLt, hxy]
        · by_cases hyx : y < x
          · simp [strLt, hxy, hyx] at h1
          · have hxeq : x = y := le_antisymm (not_lt.mp hyx) (not_lt.mp hxy)
            subst hxeq
            have h1' : strLt xs ys = true := by simpa [strLt, lt_irrefl x] using h1
            by_cases hxz : x < z
            · simp [strLt, hxz]
            · by_cases hzx : z < x
              · simp [strLt, hxz, hzx] at h2
              · have hzeq : x = z := le_antisymm (not_lt.mp hzx) (not_lt.mp hxz)
                subst hzeq
                have h2' : strLt ys zs = true := by simpa [strLt, lt_irrefl x] using h2
                simpa [strLt, lt_irrefl x] using ih ys zs h1' h2'

theorem strLt_asymm {a b : List Char} (h : strLt a b = true) : strLt b a = false := by
  cases hba : strLt b a with
  | false => rfl
  | true => exact absurd (strLt_trans a b a h hba) (by simp [strLt_irrefl a])

theorem strLt_negTrans {a b c : List Char} (h1 : strLt a b = false) (h2 : strLt b c = false) :
    strLt a c = false := by
  cases hac : strLt a c with
  | false => rfl
  | true =>
    rcases strLt_trichotomy a b with h | h | h
    · rw [h] at h1
      exact absurd h1 (by simp)
    · subst h
      rw [hac] at h2
      exact absurd h2 (by simp)
    · have := strLt_trans b a c h hac
      rw [this] at h2
      exact absurd h2 (by simp)

/-! ## Stable insertion sort lemmas -/

theorem sortedInsert_mem {lt : α → α → Bool} (a y : α) :
    ∀ l : List α, y ∈ sortedInsert lt a l ↔ y = a ∨ y ∈ l := by
  intro l
  induction l with
  | nil => simp [sortedInsert]
  | cons b bs ih =>
    cases hba : lt b a with
    | true =>
      simp only [sortedInsert, hba, if_true, List.mem_cons, ih]
      tauto
    | false =>
      simp [sortedInsert, hba, List.mem_cons]

theorem pySorted_mem {lt : α → α → Bool} (y : α) :
    ∀ l : List α, y ∈ pySorted lt l ↔ y ∈ l := by
  intro l
  induction l with
  | nil => simp [pySorted]
  | cons x xs ih => simp [pySorted, sortedInsert_mem, ih]

theorem sortedInsert_pairwise {lt : α → α → Bool}
    (hasymm : ∀ x y, lt x y = true → lt y x = false)
    (hneg : ∀ x y z, lt x y = false → lt y z = false → lt x z = false)
    (a : α) :
    ∀ l : List α, l.Pairwise (fun x y => lt y x = false) →
      (sortedInsert lt a l).Pairwise (fun x y => lt y x = false) := by
  intro l
  induction l with
  | nil =>
    intro _
    simp [sortedInsert]
  | cons b bs ih =>
    intro hp
    rcases List.pairwise_cons.mp hp with ⟨hb, hbs⟩
    cases hba : lt b a with
    | true =>
      have hstep : sortedInsert lt a (b :: bs) = b :: sortedInsert lt a bs := by
        simp [sortedInsert, hba]
      rw [hstep]
      refine List.pairwise_cons.mpr ⟨?_, ih hbs⟩
      intro y hy
      rcases (sortedInsert_mem a y bs).mp hy with rfl | hy
      · exact hasymm b y hba
      · exact hb y hy
    | false =>
      have hstep : sortedInsert lt a (b :: bs) = a :: b :: bs := by
        simp [sortedInsert, hba]
      rw [hstep]
      refine List.pairwise_cons.mpr ⟨?_, hp⟩
      intro y hy
      rcases List.mem_cons.mp hy with rfl | hy
      · exact hba
      · exact hneg y b a (hb y hy) hba

theorem pySorted_pairwise {lt : α → α → Bool}
    (hasymm : ∀ x y, lt x y = true → lt y x = false)
    (hneg : ∀ x y z, lt x y = false → lt y z = false → lt x z = false) :
    ∀ l : List α, (pySorted lt l).Pairwise (fun x y => lt y x = false) := by
  intro l
  induction l with
  | nil => simp [pySorted]
  | cons x xs ih => exact sortedInsert_pairwise hasymm hneg x _ ih

/-! ## Claims about list_images (C6, C7, C8) -/

/-- C7: for every folder, the output of list_images is sorted by
case-insensitive filename and contains only regular files whose
extension, compared case-insensitively, is one of .jpg, .jpeg, .png;
non-matching and non-regular-file entries never appear in the result. -/
theorem list_images_sorted_and_filtered (f : Folder) (l : List DirEntry)
    (h : list_images f = Except.ok l) :
    l.Pairwise (fun a b => nameKeyLt b a = false) ∧
    ∀ e ∈ l, e.isFile = true ∧ is_image e.name = true := by
  unfold list_images at h
  by_cases hr : f.readable = true
  · rw [if_pos hr] at h
    injection h with h
    subst h
    refine ⟨?_, ?_⟩
    · exact @pySorted_pairwise DirEntry nameKeyLt
        (fun x y hxy => strLt_asymm hxy)
        (fun x y z h1 h2 => strLt_negTrans h1 h2) _
    · intro e he
      have hmem := (pySorted_mem e _).mp he
      rcases List.mem_filter.mp hmem with ⟨_, hcond⟩
      exact Bool.and_eq_true _ _ |>.mp hcond
  · rw [if_neg hr] at h
    exact absurd h (by simp)

/-- Witness for C7 at a concrete folder holding image files, a text file
and a subdirectory. -/
theorem list_images_sorted_and_filtered_witness :
    ([⟨"A.jpg", true⟩, ⟨"b.png", true⟩] : List DirEntry).Pairwise
      (fun a b => nameKeyLt b a = false) ∧
    ∀ e ∈ ([⟨"A.jpg", true⟩, ⟨"b.png", true⟩] : List DirEntry),
      e.isFile = true ∧ is_image e.name = true :=
  list_images_sorted_and_filtered
    ⟨true, [⟨"b.png", true⟩, ⟨"notes.txt", true⟩, ⟨"A.jpg", true⟩, ⟨"sub.jpg", false⟩]⟩
    [⟨"A.jpg", true⟩, ⟨"b.png", true⟩] (by rfl)

/-- C8 counterexample: the claimed output order is not independent of the
enumeration order.  When the filesystem enumerates the same three files
as a.JPG before A.jpg, the stable sort keeps the two entries whose
case-insensitive keys tie in enumeration order, producing
[a.JPG, A.jpg, b.png] instead of the claimed [A.jpg, a.JPG, b.png]. -/
theorem list_images_scenario_order_dependent :
    list_images ⟨true, [⟨"b.png", true⟩, ⟨"a.JPG", true⟩, ⟨"A.jpg", true⟩]⟩ =
      Except.ok [⟨"a.JPG", true⟩, ⟨"A.jpg", true⟩, ⟨"b.png", true⟩] ∧
    ([⟨"a.JPG", true⟩, ⟨"A.jpg", true⟩, ⟨"b.png", true⟩] : List DirEntry) ≠
      [⟨"A.jpg", true⟩, ⟨"a.JPG", true⟩, ⟨"b.png", true⟩] :=
  ⟨by rfl, by decide⟩

/-- C8 amended: for the enumeration order [b.png, A.jpg, a.JPG] the
Collection comes out as [A.jpg, a.JPG, b.png]; the case-insensitive sort
is stable, so the two entries with equal keys keep their enumeration
order, and the reversed enumeration yields [a.JPG, A.jpg, b.png]. -/
theorem list_images_scenario_stable_sort :
    list_images ⟨true, [⟨"b.png", true⟩, ⟨"A.jpg", true⟩, ⟨"a.JPG", true⟩]⟩ =
      Except.ok [⟨"A.jpg", true⟩, ⟨"a.JPG", true⟩, ⟨"b.png", true⟩] ∧
    list_images ⟨true, [⟨"b.png", true⟩, ⟨"a.JPG", true⟩, ⟨"A.jpg", true⟩]⟩ =
      Except.ok [⟨"a.JPG", true⟩, ⟨"A.jpg", true⟩, ⟨"b.png", true⟩] :=
  ⟨by rfl, by rfl⟩

/-- C6 counterexample: on an unreadable folder list_images does not
return an empty result; the OSError raised by iterdir propagates out of
it uncaught (and choose_folder installs no handler either). -/
theorem list_images_unreadable_raises :
    list_images ⟨false, []⟩ ≠ Except.ok [] ∧
    list_images ⟨false, []⟩ = Except.error () :=
  ⟨by simp [list_images], by rfl⟩

/-- C6 amended: for every unreadable folder, list_images raises (the
error propagates to the caller) instead of returning an empty result. -/
theorem list_images_unreadable_propagates (f : Folder) (h : f.readable = false) :
    list_images f = Except.error () := by
  simp [list_images, h]

/-- Witness for the amended C6 at a concrete unreadable folder. -/
theorem list_images_unreadable_propagates_witness :
    list_images ⟨false, [⟨"x.jpg", true⟩]⟩ = Except.error () :=
  list_images_unreadable_propagates ⟨false, [⟨"x.jpg", true⟩]⟩ (by rfl)

/-! ## Navigation (C5) -/

/-- A navigation keystroke. -/
inductive NavStep where
  | prev
  | next
deriving DecidableEq, Repr

/-- One prev_image or next_image call. -/
def applyNav (st : AppState) : NavStep → AppState
  | NavStep.prev => prev_image st
  | NavStep.next => next_image st

/-- A finite sequence of prev/next calls. -/
def runNav (st : AppState) (ms : List NavStep) : AppState := ms.foldl applyNav st

/-- The selection-index invariant: -1 exactly on an empty Collection,
otherwise a position inside it. -/
def NavValid (st : AppState) : Prop :=
  (st.images.isEmpty = true → st.index = -1) ∧
  (st.images.isEmpty = false → 0 ≤ st.index ∧ st.index < (st.images.length : Int))

theorem prev_image_valid (st : AppState) (h : NavValid st) :
    NavValid (prev_image st) ∧ (prev_image st).images = st.images := by
  unfold prev_image
  split
  · exact ⟨h, rfl⟩
  · next hcond =>
    push_neg at hcond
    refine ⟨⟨fun he => absurd he (by simp [hcond.1]), fun _ => ?_⟩, rfl⟩
    have hb := h.2 (by simpa using hcond.1)
    dsimp only
    omega

theorem next_image_valid (st : AppState) (h : NavValid st) :
    NavValid (next_image st) ∧ (next_image st).images = st.images := by
  unfold next_image
  split
  · exact ⟨h, rfl⟩
  · next hcond =>
    push_neg at hcond
    refine ⟨⟨fun he => absurd he (by simp [hcond.1]), fun _ => ?_⟩, rfl⟩
    have hb := h.2 (by simpa using hcond.1)
    dsimp only
    omega

theorem runNav_preserves (ms : List NavStep) :
    ∀ st : AppState, NavValid st →
      NavValid (runNav st ms) ∧ (runNav st ms).images = st.images := by
  induction ms with
  | nil => exact fun st h => ⟨h, rfl⟩
  | cons m ms ih =>
    intro st h
    have hstep : NavValid (applyNav st m) ∧ (applyNav st m).images = st.images := by
      cases m
      · exact prev_image_valid st h
      · exact next_image_valid st h
    have hrest := ih (applyNav st m) hstep.1
    have hrun : runNav st (m :: ms) = runNav (applyNav st m) ms := rfl
    rw [hrun]
    exact ⟨hrest.1, hrest.2.trans hstep.2⟩

/-- C5: starting from a valid Selection Index, any finite sequence of
prev_image/next_image calls leaves the Collection untouched and keeps the
index inside [0, N-1] when N is positive and at -1 exactly when N = 0;
prev at the first element and next at the last element are no-ops. -/
theorem navigation_stays_in_bounds (st : AppState) (ms : List NavStep) (h : NavValid st) :
    (runNav st ms).images = st.images ∧
    (st.images.isEmpty = false →
      0 ≤ (runNav st ms).index ∧ (runNav st ms).index < (st.images.length : Int)) ∧
    (st.images.isEmpty = true → (runNav st ms).index = -1) ∧
    (st.index = 0 → prev_image st = st) ∧
    (st.index = (st.images.length : Int) - 1 → next_image st = st) := by
  obtain ⟨hv, hi⟩ := runNav_preserves ms st h
  refine ⟨hi, fun hne => ?_, fun he => ?_, fun h0 => ?_, fun hlast => ?_⟩
  · have := hv.2 (by rw [hi, hne])
    rw [hi] at this
    exact this
  · exact hv.1 (by rw [hi, he])
  · unfold prev_image
    rw [if_pos (Or.inr (by omega))]
  · unfold next_image
    rw [if_pos (Or.inr (by omega))]

/-- Witness for C5: three steps from index 1 in a two-image collection. -/
theorem navigation_stays_in_bounds_witness :
    (runNav ⟨[⟨"d", "a.jpg"⟩, ⟨"d", "b.jpg"⟩], 1, none, []⟩
        [NavStep.next, NavStep.prev, NavStep.prev]).images =
      [(⟨"d", "a.jpg"⟩ : FsPath), ⟨"d", "b.jpg"⟩] ∧
    (([(⟨"d", "a.jpg"⟩ : FsPath), ⟨"d", "b.jpg"⟩] : List FsPath).isEmpty = false →
      0 ≤ (runNav ⟨[⟨"d", "a.jpg"⟩, ⟨"d", "b.jpg"⟩], 1, none, []⟩
          [NavStep.next, NavStep.prev, NavStep.prev]).index ∧
      (runNav ⟨[⟨"d", "a.jpg"⟩, ⟨"d", "b.jpg"⟩], 1, none, []⟩
          [NavStep.next, NavStep.prev, NavStep.prev]).index <
        (([(⟨"d", "a.jpg"⟩ : FsPath), ⟨"d", "b.jpg"⟩] : List FsPath).length : Int)) ∧
    (([(⟨"d", "a.jpg"⟩ : FsPath), ⟨"d", "b.jpg"⟩] : List FsPath).isEmpty = true →
      (runNav ⟨[⟨"d", "a.jpg"⟩, ⟨"d", "b.jpg"⟩], 1, none, []⟩
          [NavStep.next, NavStep.prev, NavStep.prev]).index = -1) ∧
    ((1 : Int) = 0 →
      prev_image ⟨[⟨"d", "a.jpg"⟩, ⟨"d", "b.jpg"⟩], 1, none, []⟩ =
        ⟨[⟨"d", "a.jpg"⟩, ⟨"d", "b.jpg"⟩], 1, none, []⟩) ∧
    ((1 : Int) = (([(⟨"d", "a.jpg"⟩ : FsPath), ⟨"d", "b.jpg"⟩] : List FsPath).length : Int) - 1 →
      next_image ⟨[⟨"d", "a.jpg"⟩, ⟨"d", "b.jpg"⟩], 1, none, []⟩ =
        ⟨[⟨"d", "a.jpg"⟩, ⟨"d", "b.jpg"⟩], 1, none, []⟩) :=
  navigation_stays_in_bounds ⟨[⟨"d", "a.jpg"⟩, ⟨"d", "b.jpg"⟩], 1, none, []⟩
    [NavStep.next, NavStep.prev, NavStep.prev] ⟨by simp, fun _ => by simp⟩

/-! ## Thumbnail cache (C9, C10) -/

theorem popKey_eq_filter (k : ThumbKey) :
    ∀ cache : ThumbCache, (cache.map (fun kv => kv.1)).Nodup →
      popKey cache k = cache.filter (fun kv => !(kv.1 == k)) := by
  intro cache
  induction cache with
  | nil => intro _; rfl
  | cons kv rest ih =>
    intro hnd
    rw [List.map_cons, List.nodup_cons] at hnd
    by_cases hk : kv.1 = k
    · have hstep : popKey (kv :: rest) k = rest := by simp [popKey, hk]
      rw [hstep, List.filter_cons]
      simp only [hk, beq_self_eq_true, Bool.not_true, if_false]
      refine (List.filter_eq_self.mpr ?_).symm
      intro a ha
      have hne : a.1 ≠ k := by
        intro he
        refine hnd.1 ?_
        rw [hk, ← he]
        exact List.mem_map_of_mem _ ha
      simp [hne]
    · have hstep : popKey (kv :: rest) k = kv :: popKey rest k := by simp [popKey, hk]
      have hcond : (!(kv.1 == k)) = true := by simp [hk]
      rw [hstep, List.filter_cons, if_pos hcond, ih hnd.2]

theorem foldl_popKey_eq_filter :
    ∀ (ks : List ThumbKey) (cache : ThumbCache), (cache.map (fun kv => kv.1)).Nodup →
      ks.foldl popKey cache = cache.filter (fun kv => !(ks.contains kv.1)) := by
  intro ks
  induction ks with
  | nil =>
    intro cache _
    exact (List.filter_eq_self.mpr (fun a _ => rfl)).symm
  | cons k ks ih =>
    intro cache hnd
    have h1 : List.foldl popKey cache (k :: ks) = ks.foldl popKey (popKey cache k) := rfl
    have h2 : popKey cache k = cache.filter (fun kv => !(kv.1 == k)) :=
      popKey_eq_filter k cache hnd
    have hnd2 : ((cache.filter (fun kv => !(kv.1 == k))).map (fun kv => kv.1)).Nodup :=
      ((List.filter_sublist cache).map (fun kv => kv.1)).nodup hnd
    rw [h1, h2, ih _ hnd2, List.filter_filter]
    refine List.filter_congr ?_
    intro kv _
    show (!List.contains ks kv.1 && !(kv.1 == k)) = !List.contains (k :: ks) kv.1
    rw [List.contains_cons, Bool.not_or]
    exact Bool.and_comm _ _

theorem find?_filter_of_pred :
    ∀ (l : List α) (p pr : α → Bool), (∀ a ∈ l, p a = true → pr a = true) →
      (l.filter pr).find? p = l.find? p := by
  intro l
  induction l with
  | nil => intro _ _ _; rfl
  | cons a l ih =>
    intro p pr h
    rw [List.filter_cons]
    cases hpr : pr a with
    | true =>
      rw [if_pos rfl]
      cases hp : p a with
      | true => rw [List.find?_cons_of_pos _ hp, List.find?_cons_of_pos _ hp]
      | false =>
        rw [List.find?_cons_of_neg _ (by simp [hp]), List.find?_cons_of_neg _ (by simp [hp])]
        exact ih p pr (fun b hb => h b (List.mem_cons_of_mem a hb))
    | false =>
      rw [if_neg (by simp)]
      cases hp : p a with
      | true => exact absurd (h a (List.mem_cons_self a l) hp) (by simp [hpr])
      | false =>
        rw [List.find?_cons_of_neg _ (by simp [hp])]
        exact ih p pr (fun b hb => h b (List.mem_cons_of_mem a hb))

/-- C9: purging a path removes every thumbnail-cache entry for that path,
for every size, while entries for every other path are untouched. -/
theorem purge_thumb_cache_complete (cache : ThumbCache) (path : FsPath)
    (hnd : (cache.map (fun kv => kv.1)).Nodup) :
    (∀ s : Nat, dictGet (purge_thumb_cache_for_path cache path) (path, s) = none) ∧
    (∀ (q : FsPath) (s : Nat), q ≠ path →
      dictGet (purge_thumb_cache_for_path cache path) (q, s) = dictGet cache (q, s)) := by
  have hpurge : purge_thumb_cache_for_path cache path =
      cache.filter (fun kv =>
        !(((cache.filter (fun kv => kv.1.1 == path)).map (fun kv => kv.1)).contains kv.1)) :=
    foldl_popKey_eq_filter _ cache hnd
  constructor
  · intro s
    rw [hpurge]
    unfold dictGet
    rw [List.find?_eq_none.mpr ?_]
    · rfl
    · intro kv hkv hbeq
      rcases List.mem_filter.mp hkv with ⟨hmem, hpred⟩
      have hkey : kv.1 = (path, s) := by simpa using hbeq
      have hin : kv ∈ cache.filter (fun kv => kv.1.1 == path) :=
        List.mem_filter.mpr ⟨hmem, by simp [hkey]⟩
      have : ((cache.filter (fun kv => kv.1.1 == path)).map
          (fun kv => kv.1)).contains kv.1 = true := by
        simp only [List.contains_iff_exists_mem_beq]
        exact ⟨kv.1, List.mem_map_of_mem _ hin, by simp⟩
      rw [this] at hpred
      simp at hpred
  · intro q s hq
    rw [hpurge]
    unfold dictGet
    rw [find?_filter_of_pred]
    intro kv _ hbeq
    have hkey : kv.1 = (q, s) := by simpa using hbeq
    have hnc : ¬ ((cache.filter (fun kv => kv.1.1 == path)).map
        (fun kv => kv.1)).contains kv.1 = true := by
      rw [List.contains_iff_exists_mem_beq]
      rintro ⟨k, hk, hbk⟩
      rcases List.mem_map.mp hk with ⟨kv2, hkv2, rfl⟩
      rcases List.mem_filter.mp hkv2 with ⟨_, hpath⟩
      have h1 : kv.1 = kv2.1 := by simpa using hbk
      have h2 : kv2.1.1 = path := by simpa using hpath
      rw [hkey] at h1
      rw [← h1] at h2
      exact hq h2
    cases hc : ((cache.filter (fun kv => kv.1.1 == path)).map
        (fun kv => kv.1)).contains kv.1 with
    | true => exact absurd hc hnc
    | false => simp [hc]

/-- Witness for C9 on a concrete three-entry cache holding two sizes for
the purged path. -/
theorem purge_thumb_cache_complete_witness :
    (∀ s : Nat,
      dictGet (purge_thumb_cache_for_path
        [((⟨"d", "a.jpg"⟩, 96), Thumb.image ⟨"d", "a.jpg"⟩ 96),
         ((⟨"d", "b.jpg"⟩, 96), Thumb.image ⟨"d", "b.jpg"⟩ 96),
         ((⟨"d", "a.jpg"⟩, 200), Thumb.image ⟨"d", "a.jpg"⟩ 200)] ⟨"d", "a.jpg"⟩)
        (⟨"d", "a.jpg"⟩, s) = none) ∧
    (∀ (q : FsPath) (s : Nat), q ≠ ⟨"d", "a.jpg"⟩ →
      dictGet (purge_thumb_cache_for_path
        [((⟨"d", "a.jpg"⟩, 96), Thumb.image ⟨"d", "a.jpg"⟩ 96),
         ((⟨"d", "b.jpg"⟩, 96), Thumb.image ⟨"d", "b.jpg"⟩ 96),
         ((⟨"d", "a.jpg"⟩, 200), Thumb.image ⟨"d", "a.jpg"⟩ 200)] ⟨"d", "a.jpg"⟩)
        (q, s) =
      dictGet
        [((⟨"d", "a.jpg"⟩, 96), Thumb.image ⟨"d", "a.jpg"⟩ 96),
         ((⟨"d", "b.jpg"⟩, 96), Thumb.image ⟨"d", "b.jpg"⟩ 96),
         ((⟨"d", "a.jpg"⟩, 200), Thumb.image ⟨"d", "a.jpg"⟩ 200)] (q, s)) :=
  purge_thumb_cache_complete
    [((⟨"d", "a.jpg"⟩, 96), Thumb.image ⟨"d", "a.jpg"⟩ 96),
     ((⟨"d", "b.jpg"⟩, 96), Thumb.image ⟨"d", "b.jpg"⟩ 96),
     ((⟨"d", "a.jpg"⟩, 200), Thumb.image ⟨"d", "a.jpg"⟩ 200)]
    ⟨"d", "a.jpg"⟩ (by decide)

/-- C10: every _get_thumbnail call leaves the key (path, size) cached --
on decode failure the gray placeholder itself is stored under the key --
and a later call with the same key returns the identical cached bitmap
and an unchanged cache, whatever the decoder would do now, so a transient
decode failure is never retried for that key. -/
theorem get_thumbnail_always_caches (decodeOk : FsPath → Bool) (cache : ThumbCache)
    (path : FsPath) (s : Nat) :
    dictGet (get_thumbnail decodeOk cache path s).2 (path, s) =
      some (get_thumbnail decodeOk cache path s).1 ∧
    (decodeOk path = false → dictGet cache (path, s) = none →
      (get_thumbnail decodeOk cache path s).1 = Thumb.placeholder s) ∧
    (∀ d2 : FsPath → Bool,
      get_thumbnail d2 (get_thumbnail decodeOk cache path s).2 path s =
        get_thumbnail decodeOk cache path s) := by
  cases hget : dictGet cache (path, s) with
  | some c =>
    have hres : get_thumbnail decodeOk cache path s = (c, cache) := by
      unfold get_thumbnail
      rw [hget]
    rw [hres]
    refine ⟨hget, fun _ hnone => Option.noConfusion hnone, fun d2 => ?_⟩
    unfold get_thumbnail
    rw [hget]
  | none =>
    have hfind : cache.find? (fun kv => kv.1 == (path, s)) = none := by
      unfold dictGet at hget
      cases hf : cache.find? (fun kv => kv.1 == (path, s)) with
      | none => rfl
      | some kv => rw [hf] at hget; simp at hget
    have hcached : ∀ v : Thumb,
        dictGet (cache ++ [((path, s), v)]) (path, s) = some v := by
      intro v
      unfold dictGet
      rw [List.find?_append, hfind]
      rw [List.find?_cons_of_pos _ (by simp)]
      rfl
    cases hdec : decodeOk path with
    | true =>
      have hres : get_thumbnail decodeOk cache path s =
          (Thumb.image path s, cache ++ [((path, s), Thumb.image path s)]) := by
        unfold get_thumbnail
        rw [hget]
        simp [hdec]
      rw [hres]
      refine ⟨hcached _, fun hfalse _ => Bool.noConfusion hfalse, fun d2 => ?_⟩
      unfold get_thumbnail
      rw [hcached (Thumb.image path s)]
    | false =>
      have hres : get_thumbnail decodeOk cache path s =
          (Thumb.placeholder s, cache ++ [((path, s), Thumb.placeholder s)]) := by
        unfold get_thumbnail
        rw [hget]
        simp [hdec]
      rw [hres]
      refine ⟨hcached _, fun _ _ => rfl, fun d2 => ?_⟩
      unfold get_thumbnail
      rw [hcached (Thumb.placeholder s)]

/-- Witness for C10: a failing decode on an empty cache stores and then
reuses the placeholder. -/
theorem get_thumbnail_always_caches_witness :
    dictGet (get_thumbnail (fun _ => false) [] ⟨"d", "broken.jpg"⟩ 200).2
      (⟨"d", "broken.jpg"⟩, 200) =
      some (get_thumbnail (fun _ => false) [] ⟨"d", "broken.jpg"⟩ 200).1 ∧
    ((fun (_ : FsPath) => false) ⟨"d", "broken.jpg"⟩ = false →
      dictGet [] (⟨"d", "broken.jpg"⟩, 200) = none →
      (get_thumbnail (fun _ => false) [] ⟨"d", "broken.jpg"⟩ 200).1 =
        Thumb.placeholder 200) ∧
    (∀ d2 : FsPath → Bool,
      get_thumbnail d2 (get_thumbnail (fun _ => false) [] ⟨"d", "broken.jpg"⟩ 200).2
          ⟨"d", "broken.jpg"⟩ 200 =
        get_thumbnail (fun _ => false) [] ⟨"d", "broken.jpg"⟩ 200) :=
  get_thumbnail_always_caches (fun _ => false) [] ⟨"d", "broken.jpg"⟩ 200

/-! ## Collision-safe move (C2) -/

/-- The n-th destination name tried by safe_move_to_deleted: the original
name first, then stem-n ext for n = 1, 2, ... -/
def candName (name : String) : Nat → String
  | 0 => name
  | Nat.succ j => pyStem name ++ "-" ++ toString (j + 1) ++ pySuffix name

theorem findFreeCandidate_spec :
    ∀ (m i fuel : Nat) (fs : FS) (dir stem ext : String),
      (∀ j, j < m → (⟨dir, stem ++ "-" ++ toString (i + j) ++ ext⟩ : FsPath) ∈ fs) →
      (⟨dir, stem ++ "-" ++ toString (i + m) ++ ext⟩ : FsPath) ∉ fs →
      m < fuel →
      findFreeCandidate fs dir stem ext i fuel =
        some (stem ++ "-" ++ toString (i + m) ++ ext) := by
  intro m
  induction m with
  | zero =>
    intro i fuel fs dir stem ext _ hfree hfuel
    cases fuel with
    | zero => omega
    | succ f =>
      have hfree' : (⟨dir, stem ++ "-" ++ toString i ++ ext⟩ : FsPath) ∉ fs := by
        simpa using hfree
      unfold findFreeCandidate
      rw [if_neg hfree']
      simp
  | succ m ih =>
    intro i fuel fs dir stem ext hocc hfree hfuel
    cases fuel with
    | zero => omega
    | succ f =>
      unfold findFreeCandidate
      rw [if_pos (by simpa using hocc 0 (Nat.succ_pos m))]
      have h1 : ∀ j, j < m →
          (⟨dir, stem ++ "-" ++ toString (i + 1 + j) ++ ext⟩ : FsPath) ∈ fs := by
        intro j hj
        have := hocc (j + 1) (by omega)
        have harg : i + (j + 1) = i + 1 + j := by omega
        rwa [harg] at this
      have h2 : (⟨dir, stem ++ "-" ++ toString (i + 1 + m) ++ ext⟩ : FsPath) ∉ fs := by
        have harg : i + (m + 1) = i + 1 + m := by omega
        rwa [harg] at hfree
      have := ih (i + 1) f fs dir stem ext h1 h2 (by omega)
      rw [this]
      have harg : i + 1 + m = i + (m + 1) := by omega
      rw [harg]

/-- C2: if the names name, name-1, ..., name-(k-1) all exist at the
destination and name-k does not (suffix inserted before the extension,
candidates tried in increasing order), then safe_move_to_deleted moves
the source to name-k and returns that destination, which did not exist
before the move -- no existing file is overwritten. -/
theorem safe_move_collision_avoidance (fs : FS) (src : FsPath) (dir : String)
    (fuel k : Nat)
    (hocc : ∀ j, j < k → (⟨dir, candName src.name j⟩ : FsPath) ∈ fs)
    (hfree : (⟨dir, candName src.name k⟩ : FsPath) ∉ fs)
    (hfuel : k ≤ fuel) :
    safe_move_to_deleted fs src dir fuel =
      some (⟨dir, candName src.name k⟩,
        moveFile fs src ⟨dir, candName src.name k⟩) ∧
    (⟨dir, candName src.name k⟩ : FsPath) ∉ fs := by
  refine ⟨?_, hfree⟩
  cases k with
  | zero =>
    have hfree' : (⟨dir, src.name⟩ : FsPath) ∉ fs := by
      simpa [candName] using hfree
    dsimp only [safe_move_to_deleted]
    rw [if_neg hfree']
    simp [candName]
  | succ j =>
    have hocc0 : (⟨dir, src.name⟩ : FsPath) ∈ fs := by
      simpa [candName] using hocc 0 (Nat.succ_pos j)
    dsimp only [safe_move_to_deleted]
    rw [if_pos hocc0]
    have h1 : ∀ j2, j2 < j →
        (⟨dir, pyStem src.name ++ "-" ++ toString (1 + j2) ++ pySuffix src.name⟩ : FsPath)
          ∈ fs := by
      intro j2 hj2
      have := hocc (j2 + 1) (by omega)
      have harg : j2 + 1 = 1 + j2 := by omega
      rw [candName] at this
      rwa [harg] at this
    have h2 : (⟨dir, pyStem src.name ++ "-" ++ toString (1 + j) ++ pySuffix src.name⟩ : FsPath)
        ∉ fs := by
      have harg : j + 1 = 1 + j := by omega
      rw [candName] at hfree
      rwa [harg] at hfree
    have hspec := findFreeCandidate_spec j 1 fuel fs dir
      (pyStem src.name) (pySuffix src.name) h1 h2 (by omega)
    rw [hspec]
    have harg : 1 + j = j + 1 := by omega
    rw [harg, candName]

/-- Witness for C2: a.jpg and a-1.jpg already exist in the destination,
so the move lands on a-2.jpg. -/
theorem safe_move_collision_avoidance_witness :
    safe_move_to_deleted [(⟨"dd", "a.jpg"⟩ : FsPath), ⟨"dd", "a-1.jpg"⟩, ⟨"d", "a.jpg"⟩]
        ⟨"d", "a.jpg"⟩ "dd" 5 =
      some (⟨"dd", candName "a.jpg" 2⟩,
        moveFile [(⟨"dd", "a.jpg"⟩ : FsPath), ⟨"dd", "a-1.jpg"⟩, ⟨"d", "a.jpg"⟩]
          ⟨"d", "a.jpg"⟩ ⟨"dd", candName "a.jpg" 2⟩) ∧
    (⟨"dd", candName "a.jpg" 2⟩ : FsPath) ∉
      [(⟨"dd", "a.jpg"⟩ : FsPath), ⟨"dd", "a-1.jpg"⟩, ⟨"d", "a.jpg"⟩] :=
  safe_move_collision_avoidance
    [(⟨"dd", "a.jpg"⟩ : FsPath), ⟨"dd", "a-1.jpg"⟩, ⟨"d", "a.jpg"⟩]
    ⟨"d", "a.jpg"⟩ "dd" 5 2 (by decide) (by decide) (by decide)

/-! ## Move-error atomicity (C3) -/

/-- C3: whenever the filesystem move inside delete_current raises
(moveOk = false) and the call returns, the Collection, Selection Index,
UndoRecord, thumbnail cache and on-disk state are exactly as before the
attempt; and whenever the move inside undo_last_delete raises, the
record is not cleared and all state is unchanged, so the user may
retry. -/
theorem move_error_atomicity (st : AppState) (fs : FS) (fuel : Nat) :
    (∀ r : AppState × FS, delete_current st fs false fuel = some r → r = (st, fs)) ∧
    (∀ r : AppState × FS, undo_last_delete st fs false fuel = some r → r = (st, fs)) := by
  constructor
  · intro r hr
    unfold delete_current at hr
    split at hr
    · exact (Option.some.inj hr).symm
    · split at hr
      · exact Option.noConfusion hr
      · split at hr
        · exact Option.noConfusion hr
        · rw [if_neg (by simp)] at hr
          exact (Option.some.inj hr).symm
  · intro r hr
    unfold undo_last_delete at hr
    cases hld : st.lastDeleted with
    | none =>
      rw [hld] at hr
      exact (Option.some.inj hr).symm
    | some u =>
      rw [hld] at hr
      dsimp only at hr
      by_cases hmem : (⟨u.original_parent, u.original_name⟩ : FsPath) ∈ fs
      · rw [if_pos hmem] at hr
        cases hfr : findRestoredCandidate fs u.original_parent (pyStem u.original_name)
            (pySuffix u.original_name) 1 fuel with
        | none =>
          rw [hfr] at hr
          exact Option.noConfusion hr
        | some dn =>
          rw [hfr] at hr
          dsimp only at hr
          rw [if_neg (by simp)] at hr
          exact (Option.some.inj hr).symm
      · rw [if_neg hmem] at hr
        dsimp only at hr
        rw [if_neg (by simp)] at hr
        exact (Option.some.inj hr).symm

/-- Witness for C3: a failing move during delete and during undo each
leave a concrete one-image state with a live undo record untouched. -/
theorem move_error_atomicity_witness :
    ((AppState.mk [⟨"d", "a.jpg"⟩] 0
        (some (UndoRecord.mk "d" ⟨"d/.deleted", "b.jpg"⟩ 0 "b.jpg")) [],
      ([(⟨"d", "a.jpg"⟩ : FsPath), ⟨"d/.deleted", "b.jpg"⟩] : FS)) =
      (AppState.mk [⟨"d", "a.jpg"⟩] 0
        (some (UndoRecord.mk "d" ⟨"d/.deleted", "b.jpg"⟩ 0 "b.jpg")) [],
      [⟨"d", "a.jpg"⟩, ⟨"d/.deleted", "b.jpg"⟩])) ∧
    ((AppState.mk [⟨"d", "a.jpg"⟩] 0
        (some (UndoRecord.mk "d" ⟨"d/.deleted", "b.jpg"⟩ 0 "b.jpg")) [],
      ([(⟨"d", "a.jpg"⟩ : FsPath), ⟨"d/.deleted", "b.jpg"⟩] : FS)) =
      (AppState.mk [⟨"d", "a.jpg"⟩] 0
        (some (UndoRecord.mk "d" ⟨"d/.deleted", "b.jpg"⟩ 0 "b.jpg")) [],
      [⟨"d", "a.jpg"⟩, ⟨"d/.deleted", "b.jpg"⟩])) :=
  ⟨(move_error_atomicity
      (AppState.mk [⟨"d", "a.jpg"⟩] 0
        (some (UndoRecord.mk "d" ⟨"d/.deleted", "b.jpg"⟩ 0 "b.jpg")) [])
      [⟨"d", "a.jpg"⟩, ⟨"d/.deleted", "b.jpg"⟩] 5).1 _ (by rfl),
   (move_error_atomicity
      (AppState.mk [⟨"d", "a.jpg"⟩] 0
        (some (UndoRecord.mk "d" ⟨"d/.deleted", "b.jpg"⟩ 0 "b.jpg")) [])
      [⟨"d", "a.jpg"⟩, ⟨"d/.deleted", "b.jpg"⟩] 5).2 _ (by rfl)⟩

/-! ## Inversion helpers for delete_current and undo_last_delete -/

theorem findFreeCandidate_free (fs : FS) (dir stem ext : String) :
    ∀ (fuel i : Nat) (c : String),
      findFreeCandidate fs dir stem ext i fuel = some c → (⟨dir, c⟩ : FsPath) ∉ fs := by
  intro fuel
  induction fuel with
  | zero => intro i c h; exact Option.noConfusion h
  | succ f ih =>
    intro i c h
    unfold findFreeCandidate at h
    dsimp only at h
    split at h
    · exact ih (i + 1) c h
    · next hmem =>
      rw [Option.some.injEq] at h
      rw [← h]
      exact hmem

/-- Inverting a successful safe_move_to_deleted: the destination lives in
the requested folder, was previously free, and the filesystem afterwards
is the corresponding single-file move. -/
theorem safe_move_inv (fs : FS) (src : FsPath) (d : String) (fuel : Nat)
    (p : FsPath) (fs' : FS)
    (h : safe_move_to_deleted fs src d fuel = some (p, fs')) :
    p.dir = d ∧ fs' = moveFile fs src p ∧ p ∉ fs := by
  unfold safe_move_to_deleted at h
  dsimp only at h
  by_cases hmem : (⟨d, src.name⟩ : FsPath) ∈ fs
  · rw [if_pos hmem] at h
    cases hfc : findFreeCandidate fs d (pyStem src.name) (pySuffix src.name) 1 fuel with
    | none =>
      rw [hfc] at h
      exact Option.noConfusion h
    | some c =>
      rw [hfc] at h
      rw [Option.some.injEq, Prod.mk.injEq] at h
      obtain ⟨hp, hfs⟩ := h
      subst hp
      exact ⟨rfl, hfs.symm, findFreeCandidate_free fs d _ _ fuel 1 c hfc⟩
  · rw [if_neg hmem] at h
    rw [Option.some.injEq, Prod.mk.injEq] at h
    obtain ⟨hp, hfs⟩ := h
    subst hp
    exact ⟨rfl, hfs.symm, hmem⟩

theorem ne_append_deleted (s : String) : s ≠ ensure_deleted_folder s := by
  intro h
  have hlen := congrArg String.length h
  unfold ensure_deleted_folder at hlen
  rw [String.length_append] at hlen
  have h9 : ("/.deleted" : String).length = 9 := rfl
  omega

theorem insertIdx_eraseIdx_getElem :
    ∀ (l : List α) (j : Nat) (a : α), l[j]? = some a →
      List.insertIdx j a (l.eraseIdx j) = l := by
  intro l
  induction l with
  | nil => intro j a h; simp at h
  | cons x xs ih =>
    intro j a h
    cases j with
    | zero =>
      rw [List.getElem?_cons_zero, Option.some.injEq] at h
      rw [List.eraseIdx_cons_zero, List.insertIdx_zero, h]
    | succ j =>
      rw [List.getElem?_cons_succ] at h
      rw [List.eraseIdx_cons_succ, List.insertIdx_succ_cons, ih j a h]

/-- Inverting a successful delete_current on a non-empty Collection:
names the deleted entry, its destination in the .deleted folder, and the
exact state left behind. -/
theorem delete_current_inv (st : AppState) (fs : FS) (fuel : Nat)
    (st1 : AppState) (fs1 : FS)
    (h : delete_current st fs true fuel = some (st1, fs1))
    (hne : st.images.isEmpty = false) :
    ∃ (cur moved_to : FsPath) (j : Nat),
      pyNorm st.images.length st.index = some j ∧
      st.images[j]? = some cur ∧
      moved_to.dir = ensure_deleted_folder cur.dir ∧
      moved_to ∉ fs ∧
      fs1 = moveFile fs cur moved_to ∧
      st1.images = st.images.eraseIdx j ∧
      st1.lastDeleted = some (UndoRecord.mk cur.dir moved_to st.index cur.name) ∧
      st1.thumbCache = purge_thumb_cache_for_path st.thumbCache cur ∧
      st1.index = (if (st.images.eraseIdx j).isEmpty then -1
                   else min st.index (((st.images.eraseIdx j).length : Int) - 1)) := by
  unfold delete_current at h
  rw [if_neg (by simp [hne])] at h
  cases hg : pyGet st.images st.index with
  | none =>
    rw [hg] at h
    exact Option.noConfusion h
  | some cur =>
    rw [hg] at h
    dsimp only at h
    cases hsm : safe_move_to_deleted fs cur (ensure_deleted_folder cur.dir) fuel with
    | none =>
      rw [hsm] at h
      exact Option.noConfusion h
    | some pr =>
      obtain ⟨moved_to, fs'⟩ := pr
      obtain ⟨hdir, hfs', hfree⟩ := safe_move_inv fs cur _ fuel moved_to fs' hsm
      rw [hsm] at h
      dsimp only at h
      rw [if_pos rfl] at h
      unfold pyGet at hg
      cases hn : pyNorm st.images.length st.index with
      | none =>
        rw [hn, Option.none_bind] at hg
        exact Option.noConfusion hg
      | some j =>
        rw [hn, Option.some_bind] at hg
        rw [Option.some.injEq, Prod.mk.injEq] at h
        obtain ⟨hst1, hfs1⟩ := h
        refine ⟨cur, moved_to, j, rfl, hg, hdir, hfree, by rw [← hfs1, hfs'], ?_, ?_, ?_, ?_⟩
        · rw [← hst1]
          show pyDeleteAt st.images st.index = st.images.eraseIdx j
          unfold pyDeleteAt
          rw [hn]
        · rw [← hst1]
        · rw [← hst1]
        · rw [← hst1]
          show (if (pyDeleteAt st.images st.index).isEmpty then (-1 : Int)
                else min st.index (((pyDeleteAt st.images st.index).length : Int) - 1)) = _
          have hdel : pyDeleteAt st.images st.index = st.images.eraseIdx j := by
            unfold pyDeleteAt
            rw [hn]
          rw [hdel]

/-- C1: deleting the current image and immediately undoing (both moves
succeeding, the original folder free of collisions) restores the file to
its original folder under its original name, puts Selection Index back,
clears the undo record, and leaves the Collection element-for-element
equal to its pre-delete state; the filesystem is a permutation of the
original one with the file back at its original path. -/
theorem delete_undo_round_trip (st : AppState) (fs : FS) (fuel fuel2 : Nat)
    (st1 : AppState) (fs1 : FS) (cur : FsPath)
    (hnd : fs.Nodup)
    (h0 : 0 ≤ st.index) (h1 : st.index < (st.images.length : Int))
    (hcur : pyGet st.images st.index = some cur)
    (hmem : cur ∈ fs)
    (hdel : delete_current st fs true fuel = some (st1, fs1)) :
    ∃ (st2 : AppState) (fs2 : FS),
      undo_last_delete st1 fs1 true fuel2 = some (st2, fs2) ∧
      st2.images = st.images ∧
      st2.index = st.index ∧
      st2.lastDeleted = none ∧
      cur ∈ fs2 ∧
      fs2.Perm fs := by
  have hne : st.images.isEmpty = false := by
    cases himg : st.images with
    | nil => rw [himg] at h1; simp at h1; omega
    | cons a l => rfl
  obtain ⟨cur2, moved_to, j, hn, hg, hdir, hfree, hfs1, himgs1, hld1, hcache1, hidx1⟩ :=
    delete_current_inv st fs fuel st1 fs1 hdel hne
  -- the looked-up entry agrees with the hypothesis
  have hcur2 : cur = cur2 := by
    unfold pyGet at hcur
    rw [hn, Option.some_bind, hg] at hcur
    exact (Option.some.inj hcur).symm
  subst hcur2
  -- index arithmetic
  have hj : j = st.index.toNat := by
    unfold pyNorm at hn
    rw [if_pos ⟨h0, h1⟩] at hn
    exact (Option.some.inj hn).symm
  have hjlt : j < st.images.length := by
    rcases List.getElem?_eq_some_iff.mp hg with ⟨hlt, _⟩
    exact hlt
  -- the file vanished from its original path
  have hcur_ne : cur ≠ moved_to := by
    intro he
    apply ne_append_deleted cur.dir
    conv_lhs => rw [he]
    exact hdir
  have hnotin1 : cur ∉ fs1 := by
    rw [hfs1]
    unfold moveFile
    intro hin
    rcases List.mem_cons.mp hin with he | hin
    · exact hcur_ne he
    · rw [List.Nodup.mem_erase_iff hnd] at hin
      exact hin.1 rfl
  -- run the undo
  unfold undo_last_delete
  rw [hld1]
  dsimp only
  rw [if_neg hnotin1]
  dsimp only
  rw [if_pos rfl]
  have hlen1 : st1.images.length = st.images.length - 1 := by
    rw [himgs1, List.length_eraseIdx, if_pos hjlt]
  have hinsert : (0 : Int) ⊔ (st.index ⊓ (st1.images.length : Int)) = st.index := by
    have : 1 ≤ st.images.length := by omega
    rw [hlen1]
    push_cast [this]
    omega
  refine ⟨_, _, rfl, ?_, ?_, rfl, ?_, ?_⟩
  · dsimp only
    rw [hinsert]
    have htn : st.index.toNat = j := hj.symm
    rw [htn, himgs1]
    exact insertIdx_eraseIdx_getElem st.images j cur hg
  · dsimp only
    rw [hinsert]
  · dsimp only
    rw [hfs1]
    unfold moveFile
    rw [List.erase_cons_head]
    exact List.mem_cons_self _ _
  · dsimp only
    rw [hfs1]
    unfold moveFile
    rw [List.erase_cons_head]
    exact (List.perm_cons_erase hmem).symm

/-- Witness for C1: deleting b.jpg at index 1 of a three-image folder and
undoing restores the state. -/
theorem delete_undo_round_trip_witness :
    ∃ (st2 : AppState) (fs2 : FS),
      undo_last_delete
          (AppState.mk [⟨"d", "a.jpg"⟩, ⟨"d", "c.jpg"⟩] 1
            (some (UndoRecord.mk "d" ⟨"d/.deleted", "b.jpg"⟩ 1 "b.jpg")) [])
          [⟨"d/.deleted", "b.jpg"⟩, ⟨"d", "a.jpg"⟩, ⟨"d", "c.jpg"⟩] true 5 =
        some (st2, fs2) ∧
      st2.images =
        (AppState.mk [⟨"d", "a.jpg"⟩, ⟨"d", "b.jpg"⟩, ⟨"d", "c.jpg"⟩] 1 none []).images ∧
      st2.index =
        (AppState.mk [⟨"d", "a.jpg"⟩, ⟨"d", "b.jpg"⟩, ⟨"d", "c.jpg"⟩] 1 none []).index ∧
      st2.lastDeleted = none ∧
      (⟨"d", "b.jpg"⟩ : FsPath) ∈ fs2 ∧
      fs2.Perm [⟨"d", "a.jpg"⟩, ⟨"d", "b.jpg"⟩, ⟨"d", "c.jpg"⟩] :=
  delete_undo_round_trip
    (AppState.mk [⟨"d", "a.jpg"⟩, ⟨"d", "b.jpg"⟩, ⟨"d", "c.jpg"⟩] 1 none [])
    [⟨"d", "a.jpg"⟩, ⟨"d", "b.jpg"⟩, ⟨"d", "c.jpg"⟩] 5 5
    (AppState.mk [⟨"d", "a.jpg"⟩, ⟨"d", "c.jpg"⟩] 1
      (some (UndoRecord.mk "d" ⟨"d/.deleted", "b.jpg"⟩ 1 "b.jpg")) [])
    [⟨"d/.deleted", "b.jpg"⟩, ⟨"d", "a.jpg"⟩, ⟨"d", "c.jpg"⟩]
    ⟨"d", "b.jpg"⟩ (by decide) (by decide) (by decide) (by rfl) (by decide) (by rfl)

/-! ## Single-level undo (C4) -/

theorem mem_of_getElem?_some {l : List α} {j : Nat} {a : α} (h : l[j]? = some a) : a ∈ l := by
  rcases List.getElem?_eq_some_iff.mp h with ⟨hlt, he⟩
  exact he ▸ List.getElem_mem hlt

theorem not_mem_eraseIdx_of_nodup :
    ∀ (l : List α) (j : Nat) (a : α), l.Nodup → l[j]? = some a → a ∉ l.eraseIdx j := by
  intro l
  induction l with
  | nil =>
    intro j a _ h
    simp at h
  | cons x xs ih =>
    intro j a hnd h
    rcases List.nodup_cons.mp hnd with ⟨hx, hxs⟩
    cases j with
    | zero =>
      rw [List.getElem?_cons_zero, Option.some.injEq] at h
      rw [List.eraseIdx_cons_zero, ← h]
      exact hx
    | succ j =>
      rw [List.getElem?_cons_succ] at h
      rw [List.eraseIdx_cons_succ]
      intro hmem
      rcases List.mem_cons.mp hmem with he | hmem2
      · exact hx (he ▸ mem_of_getElem?_some h)
      · exact ih j a hxs h hmem2

/-- Running undo_last_delete when a record exists and the original path
is free again: the record is consumed, the file moves back, and the entry
is inserted at the clamped original index. -/
theorem undo_no_collision (st : AppState) (fs : FS) (fuel : Nat) (u : UndoRecord)
    (hld : st.lastDeleted = some u)
    (hnc : (⟨u.original_parent, u.original_name⟩ : FsPath) ∉ fs) :
    undo_last_delete st fs true fuel =
      some (AppState.mk
        (List.insertIdx (max 0 (min u.original_index (st.images.length : Int))).toNat
          ⟨u.original_parent, u.original_name⟩ st.images)
        (max 0 (min u.original_index (st.images.length : Int)))
        none st.thumbCache,
      moveFile fs u.moved_to ⟨u.original_parent, u.original_name⟩) := by
  unfold undo_last_delete
  rw [hld]
  dsimp only
  rw [if_neg hnc]
  dsimp only
  rw [if_pos rfl]

/-- C4: after two consecutive successful deletes, the first undo restores
only the file removed by the second delete (the undo slot was overwritten
by the second delete and is cleared by the undo), a second undo
invocation changes no state, and the first deleted file stays in the
.deleted folder, its original path absent. -/
theorem undo_is_single_level (st0 : AppState) (fs0 : FS) (d : String)
    (fuel1 fuel2 fuel3 fuel4 : Nat)
    (st1 st2 st3 : AppState) (fs1 fs2 fs3 : FS)
    (hd : ∀ p ∈ st0.images, p.dir = d)
    (hndI : st0.images.Nodup)
    (hndF : fs0.Nodup)
    (hN : 2 ≤ st0.images.length)
    (hdel1 : delete_current st0 fs0 true fuel1 = some (st1, fs1))
    (hdel2 : delete_current st1 fs1 true fuel2 = some (st2, fs2))
    (hundo : undo_last_delete st2 fs2 true fuel3 = some (st3, fs3)) :
    undo_last_delete st3 fs3 true fuel4 = some (st3, fs3) ∧
    st3.lastDeleted = none ∧
    ∃ u1 : UndoRecord, st1.lastDeleted = some u1 ∧
      u1.moved_to.dir = ensure_deleted_folder d ∧
      u1.moved_to ∈ fs3 ∧
      (⟨u1.original_parent, u1.original_name⟩ : FsPath) ∉ fs3 := by
  have hne0 : st0.images.isEmpty = false := by
    cases h : st0.images with
    | nil => rw [h] at hN; simp at hN
    | cons a l => rfl
  obtain ⟨A, mt1, j0, hn0, hg0, hdir1, hfree1, hfs1, himgs1, hld1, hcache1, hidx1⟩ :=
    delete_current_inv st0 fs0 fuel1 st1 fs1 hdel1 hne0
  have hjlt0 : j0 < st0.images.length := (List.getElem?_eq_some_iff.mp hg0).1
  have hAmem : A ∈ st0.images := mem_of_getElem?_some hg0
  have hAdir : A.dir = d := hd A hAmem
  have hne1 : st1.images.isEmpty = false := by
    rw [himgs1]
    have hlen : (st0.images.eraseIdx j0).length = st0.images.length - 1 := by
      rw [List.length_eraseIdx, if_pos hjlt0]
    cases h : st0.images.eraseIdx j0 with
    | nil => rw [h] at hlen; simp at hlen; omega
    | cons a l => rfl
  obtain ⟨B, mt2, j1, hn1, hg1, hdir2, hfree2, hfs2, himgs2, hld2, hcache2, hidx2⟩ :=
    delete_current_inv st1 fs1 fuel2 st2 fs2 hdel2 hne1
  have hBmem1 : B ∈ st1.images := mem_of_getElem?_some hg1
  have hBmem0 : B ∈ st0.images := by
    have hx := hBmem1
    rw [himgs1] at hx
    exact (List.eraseIdx_sublist st0.images j0).subset hx
  have hBdir : B.dir = d := hd B hBmem0
  have hA_ne_mt1 : A ≠ mt1 := by
    intro he
    apply ne_append_deleted A.dir
    conv_lhs => rw [he]
    exact hdir1
  have hAnotin1 : A ∉ fs1 := by
    rw [hfs1]
    show A ∉ mt1 :: fs0.erase A
    intro hin
    rcases List.mem_cons.mp hin with he | hin
    · exact hA_ne_mt1 he
    · exact ((List.Nodup.mem_erase_iff hndF).mp hin).1 rfl
  have hfs1nd : fs1.Nodup := by
    rw [hfs1]
    show (mt1 :: fs0.erase A).Nodup
    refine List.nodup_cons.mpr ⟨?_, hndF.erase A⟩
    intro hin
    exact hfree1 ((List.erase_sublist A fs0).subset hin)
  have hB_ne_mt2 : B ≠ mt2 := by
    intro he
    apply ne_append_deleted B.dir
    conv_lhs => rw [he]
    exact hdir2
  have hBnotin2 : (⟨B.dir, B.name⟩ : FsPath) ∉ fs2 := by
    rw [hfs2]
    show (⟨B.dir, B.name⟩ : FsPath) ∉ mt2 :: fs1.erase B
    intro hin
    rcases List.mem_cons.mp hin with he | hin
    · exact hB_ne_mt2 he
    · exact ((List.Nodup.mem_erase_iff hfs1nd).mp hin).1 rfl
  have hU := undo_no_collision st2 fs2 fuel3 (UndoRecord.mk B.dir mt2 st1.index B.name)
    hld2 hBnotin2
  rw [hU, Option.some.injEq, Prod.mk.injEq] at hundo
  obtain ⟨hst3, hfs3⟩ := hundo
  have hfs3' : fs3 = B :: fs1.erase B := by
    rw [← hfs3, hfs2]
    show (⟨B.dir, B.name⟩ : FsPath) :: (mt2 :: fs1.erase B).erase mt2 = B :: fs1.erase B
    rw [List.erase_cons_head]
  have hst3ld : st3.lastDeleted = none := by
    rw [← hst3]
  have hAB : A ≠ B := by
    intro he
    apply not_mem_eraseIdx_of_nodup st0.images j0 A hndI hg0
    rw [he, ← himgs1]
    exact hBmem1
  have hmt1B : mt1 ≠ B := by
    intro he
    apply ne_append_deleted d
    conv_lhs => rw [← hBdir, ← he]
    rw [hdir1, hAdir]
  refine ⟨?_, hst3ld, UndoRecord.mk A.dir mt1 st0.index A.name, hld1, ?_, ?_, ?_⟩
  · unfold undo_last_delete
    rw [hst3ld]
  · show mt1.dir = ensure_deleted_folder d
    rw [hdir1, hAdir]
  · show mt1 ∈ fs3
    rw [hfs3']
    refine List.mem_cons_of_mem _ ?_
    refine (List.mem_erase_of_ne hmt1B).mpr ?_
    rw [hfs1]
    exact List.mem_cons_self _ _
  · show A ∉ fs3
    rw [hfs3']
    intro hin
    rcases List.mem_cons.mp hin with he | hin
    · exact hAB he
    · exact hAnotin1 ((List.erase_sublist B fs1).subset hin)

/-- Witness for C4: delete a.jpg then b.jpg from a three-image folder,
undo once (restoring b.jpg), and observe that a second undo is inert and
a.jpg stays in .deleted. -/
theorem undo_is_single_level_witness :
    undo_last_delete (AppState.mk [⟨"d", "b.jpg"⟩, ⟨"d", "c.jpg"⟩] 0 none [])
        [⟨"d", "b.jpg"⟩, ⟨"d/.deleted", "a.jpg"⟩, ⟨"d", "c.jpg"⟩] true 5 =
      some (AppState.mk [⟨"d", "b.jpg"⟩, ⟨"d", "c.jpg"⟩] 0 none [],
        [⟨"d", "b.jpg"⟩, ⟨"d/.deleted", "a.jpg"⟩, ⟨"d", "c.jpg"⟩]) ∧
    (AppState.mk [⟨"d", "b.jpg"⟩, ⟨"d", "c.jpg"⟩] 0 none []).lastDeleted = none ∧
    ∃ u1 : UndoRecord,
      (AppState.mk [⟨"d", "b.jpg"⟩, ⟨"d", "c.jpg"⟩] 0
        (some (UndoRecord.mk "d" ⟨"d/.deleted", "a.jpg"⟩ 0 "a.jpg")) []).lastDeleted =
          some u1 ∧
      u1.moved_to.dir = ensure_deleted_folder "d" ∧
      u1.moved_to ∈ [(⟨"d", "b.jpg"⟩ : FsPath), ⟨"d/.deleted", "a.jpg"⟩, ⟨"d", "c.jpg"⟩] ∧
      (⟨u1.original_parent, u1.original_name⟩ : FsPath) ∉
        [(⟨"d", "b.jpg"⟩ : FsPath), ⟨"d/.deleted", "a.jpg"⟩, ⟨"d", "c.jpg"⟩] :=
  undo_is_single_level
    (AppState.mk [⟨"d", "a.jpg"⟩, ⟨"d", "b.jpg"⟩, ⟨"d", "c.jpg"⟩] 0 none [])
    [⟨"d", "a.jpg"⟩, ⟨"d", "b.jpg"⟩, ⟨"d", "c.jpg"⟩] "d" 5 5 5 5
    (AppState.mk [⟨"d", "b.jpg"⟩, ⟨"d", "c.jpg"⟩] 0
      (some (UndoRecord.mk "d" ⟨"d/.deleted", "a.jpg"⟩ 0 "a.jpg")) [])
    (AppState.mk [⟨"d", "c.jpg"⟩] 0
      (some (UndoRecord.mk "d" ⟨"d/.deleted", "b.jpg"⟩ 0 "b.jpg")) [])
    (AppState.mk [⟨"d", "b.jpg"⟩, ⟨"d", "c.jpg"⟩] 0 none [])
    [⟨"d/.deleted", "a.jpg"⟩, ⟨"d", "b.jpg"⟩, ⟨"d", "c.jpg"⟩]
    [⟨"d/.deleted", "b.jpg"⟩, ⟨"d/.deleted", "a.jpg"⟩, ⟨"d", "c.jpg"⟩]
    [⟨"d", "b.jpg"⟩, ⟨"d/.deleted", "a.jpg"⟩, ⟨"d", "c.jpg"⟩]
    (by decide) (by decide) (by decide) (by decide) (by rfl) (by rfl) (by rfl)
